import Mathlib

/-!
Verification development for the fc4eosc-recommender repository:
the category-based (multi-armed bandit) recommender.

Part 1 embeds, over a list-based relational semantics, the arm-generation
pipeline: the SQL that builds `recsys_schema.top100_per_level_2_fos_ids`
and `recsys_schema.top100_per_level_2_fos`
(`sql/build_recommenders_schema.sql`, category-based section), the
candidate query and the two generation loops of
`docs/category_based_recommender.md` (Arm Generation Process).

Part 2 models the online bandit engine (the `darelabdb.recs_mab`
package: `Ucb`, `pUcb`, `JsonFile`, `RedisStorage`).  That package is
not part of this repository snapshot - only its call sites and
documentation are - so those definitions are modelled from the spec and
are marked as such.
-/

set_option maxRecDepth 8000
set_option maxHeartbeats 4000000

/-- Row of `public.result_fos` (columns used by the pipeline:
`sk_result_id`, `fos_id`). -/
structure ResultFosRow where
  sk : ℕ
  fosId : ℕ
deriving DecidableEq

/-- Row of `public.fos` (columns used: `id`, `label`). -/
structure FosRow where
  id : ℕ
  label : String
deriving DecidableEq

/-- Row of `public.result_citations`; the pipeline only joins on
`sk_result_id_cited`, one row per citation edge. -/
structure CitRow where
  cited : ℕ
deriving DecidableEq

/-- Row of `public.result_community` (columns used: `sk_result_id`,
`community_id`). -/
structure RComRow where
  sk : ℕ
  communityId : ℕ
deriving DecidableEq

/-- Row of `public.community` (columns used: `id`, `acronym`). -/
structure CommunityRow where
  id : ℕ
  acronym : String
deriving DecidableEq

/-- Row of `public.result` (columns used: `sk_id` and the string
identifier `id`, which the candidate query aggregates into arms). -/
structure ResultRow where
  sk : ℕ
  idStr : String
deriving DecidableEq

/-- Row of `public.result_author` (columns used: `sk_result_id`; the
aggregated author names are carried along but never consumed by the
arm generation, so only existence matters). -/
structure RAuthorRow where
  sk : ℕ
  fullname : String
deriving DecidableEq

/-- The base tables consumed by the category-based arm generation. -/
structure DB where
  result_fos : List ResultFosRow
  fos : List FosRow
  result_citations : List CitRow
  result_community : List RComRow
  community : List CommunityRow
  result : List ResultRow
  result_author : List RAuthorRow
deriving DecidableEq

/-- Row of the `citations_count` CTE of
`sql/build_recommenders_schema.sql` (grouped by
`fos_id, label, sk_result_id` with `COUNT(rf.sk_result_id)`). -/
structure CCRow where
  level2Id : ℕ
  level2Label : String
  sk : ℕ
  citations : ℕ
deriving DecidableEq

/-- The join underlying `citations_count`, one entry per joined row,
keyed by the GROUP BY columns.  The WHERE clause
`rf.fos_id / 100 >= 1 AND rf.fos_id / 100 < 10` selects level-2 fos. -/
def ccJoin (db : DB) : List (ℕ × String × ℕ) :=
  db.result_fos.flatMap fun rf =>
    if 1 ≤ rf.fosId / 100 ∧ rf.fosId / 100 < 10 then
      (db.fos.filter fun f => f.id == rf.fosId).flatMap fun f =>
        (db.result_citations.filter fun rc => rc.cited == rf.sk).flatMap fun _ =>
          (db.result_community.filter fun rcom => rcom.sk == rf.sk).map fun _ =>
            (rf.fosId, f.label, rf.sk)
    else []

/-- The `citations_count` CTE: one row per distinct group key, with the
group's row count as `citations`.  (SQL assigns no order to a grouped
result; `List.dedup` fixes one deterministic realization.) -/
def citations_count (db : DB) : List CCRow :=
  (ccJoin db).dedup.map fun k =>
    { level2Id := k.1, level2Label := k.2.1, sk := k.2.2,
      citations := ((ccJoin db).filter fun j => j == k).length }

/-- Descending insertion by `citations`, stable on ties, realizing the
`ROW_NUMBER() OVER (PARTITION BY level_2_id ORDER BY citations DESC)`
ranking (ties are unordered in SQL; stability fixes one realization). -/
def insertByCitDesc (x : CCRow) : List CCRow → List CCRow
  | [] => [x]
  | y :: ys => if x.citations ≤ y.citations then y :: insertByCitDesc x ys else x :: y :: ys

/-- Stable sort by descending `citations`. -/
def sortByCitDesc (l : List CCRow) : List CCRow :=
  l.foldl (fun acc x => insertByCitDesc x acc) []

/-- The table `recsys_schema.top100_per_level_2_fos_ids`: per
`level_2_id` partition, the rows of rank at most 100 by descending
citations. -/
def top100_per_level_2_fos_ids (db : DB) : List CCRow :=
  ((citations_count db).map (·.level2Id)).dedup.flatMap fun l2 =>
    (sortByCitDesc ((citations_count db).filter fun r => r.level2Id == l2)).take 100

/-- Row of `recsys_schema.top100_per_level_2_fos` restricted to the
columns the candidate query reads (`id`, `community_acronym`,
`level_2_label`, `citations`) plus `level_2_id` for bookkeeping. -/
structure FRow where
  idStr : String
  acr : String
  level2Id : ℕ
  level2Label : String
  citations : ℕ
deriving DecidableEq

/-- The table `recsys_schema.top100_per_level_2_fos`: the ids table
joined with `result_community`, `community`, the grouped `authors` CTE
(an inner join, so results without authors drop out), the level-1
`result_fos` rows (`rfos.fos_id < 10`) with `fos`, and `result`. -/
def top100_per_level_2_fos (db : DB) : List FRow :=
  (top100_per_level_2_fos_ids db).flatMap fun t =>
    (db.result_community.filter fun rc => rc.sk == t.sk).flatMap fun rc =>
      (db.community.filter fun c => c.id == rc.communityId).flatMap fun c =>
        (if (db.result_author.filter fun ra => ra.sk == t.sk).length == 0 then [] else [Unit.unit]).flatMap fun _ =>
          (db.result_fos.filter fun rf => rf.sk == t.sk && decide (rf.fosId < 10)).flatMap fun rf1 =>
            (db.fos.filter fun f => f.id == rf1.fosId).flatMap fun _ =>
              (db.result.filter fun r => r.sk == t.sk).map fun r =>
                { idStr := r.idStr, acr := c.acronym, level2Id := t.level2Id,
                  level2Label := t.level2Label, citations := t.citations }

/-- Row of the candidate query's CTE `t`:
`select distinct community_acronym, level_2_label, id, citations`. -/
structure TRow where
  acr : String
  label : String
  idStr : String
  citations : ℕ
deriving DecidableEq

/-- The CTE `t` of the candidate query in
`docs/category_based_recommender.md`. -/
def tRows (db : DB) : List TRow :=
  ((top100_per_level_2_fos db).map fun f =>
    { acr := f.acr, label := f.level2Label, idStr := f.idStr, citations := f.citations : TRow }).dedup

/-- Row of the CTE `t2`: grouped by `(community_acronym,
level_2_label)` with `count(1)` and `string_agg(id, ',')`.  The
aggregated string is modelled as the list of ids in group order
(identifiers are assumed comma-free, so split-of-agg is the identity);
`avg_citations` and `median_citations` are never consumed downstream
and are omitted. -/
structure T2Row where
  acr : String
  label : String
  count_pubs : ℕ
  publications : List String
deriving DecidableEq, Inhabited

/-- The CTE `t2` of the candidate query. -/
def t2Rows (db : DB) : List T2Row :=
  ((tRows db).map fun r => (r.acr, r.label)).dedup.map fun k =>
    { acr := k.1, label := k.2,
      count_pubs := ((tRows db).filter fun r => r.acr == k.1 && r.label == k.2).length,
      publications := (((tRows db).filter fun r => r.acr == k.1 && r.label == k.2).map (·.idStr)) }

/-- The candidate query's final selection: `select * from t2 where
count_pubs >30`. -/
def candidates (db : DB) : List T2Row :=
  (t2Rows db).filter fun r => decide (30 < r.count_pubs)

/-- Bandit policy with its constructor arguments, as instantiated by
the generation loops: `pUcb(0.3, 0.5, ...)` for categories and
`Ucb(0.5, ...)` for publications. -/
inductive MabPolicy where
  | pUcb (explorationRate biasInfluence : ℚ)
  | ucb (explorationRate : ℚ)
deriving DecidableEq, Inhabited

/-- One bandit instance as seeded by the generation loops: the JSON
file basename (the constant `settings.production_dir` prefix is common
to all keys and dropped), the policy object with its parameters, and
the zero-initialized statistics (`init=True`, `bias=np.zeros`). -/
structure GenInstance where
  key : String
  policy : MabPolicy
  arms : List String
  counts : List ℕ
  rewards : List ℚ
  bias : List ℚ
deriving DecidableEq, Inhabited

/-- The category-level generation loop (Create arms for Categories):
one `pUcb(0.3, 0.5, ...)` instance per distinct community acronym of
the filtered result, with the community's distinct labels as arms and
file `community + ".json"`. -/
def categoryInstances (db : DB) : List GenInstance :=
  ((candidates db).map (·.acr)).dedup.map fun c =>
    let arms := (((candidates db).filter fun r => r.acr == c).map (·.label)).dedup
    { key := c ++ ".json", policy := .pUcb 0.3 0.5, arms := arms,
      counts := List.replicate arms.length 0,
      rewards := List.replicate arms.length 0,
      bias := List.replicate arms.length 0 }

/-- The item-level generation loop (Create arms for publications): one
`Ucb(0.5, ...)` instance per row of the filtered result, with the
row's aggregated publications as arms and file
`community_acronym + "_" + level_2_label + ".json"`. -/
def itemInstances (db : DB) : List GenInstance :=
  (candidates db).map fun r =>
    { key := r.acr ++ "_" ++ r.label ++ ".json", policy := .ucb 0.5,
      arms := r.publications,
      counts := List.replicate r.publications.length 0,
      rewards := List.replicate r.publications.length 0,
      bias := List.replicate r.publications.length 0 }

/-- Example base data: one community (id 7, acronym given per row),
each publication carries one level-2 fos tag, one level-1 fos tag
(id 1), one citation, one author, and one community membership. -/
def mkDB (fosTable : List FosRow) (pubs : List (ℕ × ℕ × String)) : DB :=
  { result_fos := pubs.flatMap fun p => [{ sk := p.1, fosId := p.2.1 }, { sk := p.1, fosId := 1 }],
    fos := fosTable,
    result_citations := pubs.map fun p => { cited := p.1 },
    result_community := pubs.map fun p => { sk := p.1, communityId := 7 },
    community := [{ id := 7, acronym := "c" }],
    result := pubs.map fun p => { sk := p.1, idStr := p.2.2 },
    result_author := pubs.map fun p => { sk := p.1, fullname := "auth" } }

/-- A database with exactly 30 candidate publications for the single
combination (community c, level-2 tag art). -/
def exDB30 : DB :=
  mkDB [{ id := 1, label := "lvl1" }, { id := 100, label := "art" }]
    ((List.range 30).map fun n => (n + 1, 100, "p" ++ toString n))

/-- The 31 publication identifiers of `exDB31`, deliberately starting
with "b", "a" (equal citation counts, identifiers out of order). -/
def ids31 : List String := ["b", "a"] ++ (List.range 29).map fun n => "d" ++ toString n

/-- A database with 31 candidate publications (all tied at one
citation) for the single combination (community c, tag art). -/
def exDB31 : DB :=
  mkDB [{ id := 1, label := "lvl1" }, { id := 100, label := "art" }]
    (ids31.enum.map fun p => (p.1 + 1, 100, p.2))

/-- A database in which two distinct level-2 fos ids (100 and 200)
share the label "art": 100 candidate publications under fos 100 plus
one more under fos 200, all in community c. -/
def exDB101 : DB :=
  mkDB [{ id := 1, label := "lvl1" }, { id := 100, label := "art" }, { id := 200, label := "art" }]
    (((List.range 100).map fun n => (n + 1, 100, "p" ++ toString n)) ++ [(101, 200, "q")])

/-- The JSON file basename used for a community's category-level
bandit: `community + ".json"`. -/
def catKey (c : String) : String := c ++ ".json"

/-- The JSON file basename used for an item-level bandit:
`community_acronym + "_" + level_2_label + ".json"`. -/
def itemKey (c l : String) : String := c ++ "_" ++ l ++ ".json"

/-- Lexicographic identifier order, expressed on the character lists
(same order as the string order, stated in a kernel-evaluable form). -/
def idLe (x y : String) : Prop := ¬ y.data < x.data

instance (x y : String) : Decidable (idLe x y) := by
  unfold idLe; infer_instance

/-- The ordering asserted by the spec for a generated arm list:
descending citation count, ties broken by ascending arm identifier. -/
def claimArmOrder (cit : String → ℕ) (arms : List String) : Prop :=
  arms.Pairwise fun x y => cit y < cit x ∨ (cit x = cit y ∧ idLe x y)

/-- The same ordering with the opposite reading of the tie-break
(descending identifier). -/
def claimArmOrderRev (cit : String → ℕ) (arms : List String) : Prop :=
  arms.Pairwise fun x y => cit y < cit x ∨ (cit x = cit y ∧ idLe y x)

instance (cit : String → ℕ) (arms : List String) : Decidable (claimArmOrder cit arms) := by
  unfold claimArmOrder; infer_instance

instance (cit : String → ℕ) (arms : List String) : Decidable (claimArmOrderRev cit arms) := by
  unfold claimArmOrderRev; infer_instance

/-- Citation count attached to an arm of a (community, label) group of
the candidate query result. -/
def groupCit (db : DB) (acr label a : String) : ℕ :=
  (((tRows db).filter fun r => r.acr == acr && r.label == label && r.idStr == a).map
    (·.citations)).headI

/-- The fos id a level-2 label resolves to (the id of the first fos
row carrying that label). -/
def labelToId (db : DB) (label : String) : ℕ :=
  ((db.fos.filter fun f => f.label == label).map (·.id)).headI

/-- The result-id string recorded for a surrogate key (the id of the
first result row carrying that key). -/
def idStrOf (db : DB) (sk : ℕ) : String :=
  ((db.result.filter fun rr => rr.sk == sk).map (·.idStr)).headI

/-- Modelled from the spec: the serialized statistical state of one
bandit instance held by the `darelabdb.recs_mab` engine, which is not
part of this repository snapshot.  Fields follow the serialized
instance schema of the spec (arm list, counts, cumulative rewards,
bias, version marker) plus the derived `total_pulls`. -/
structure InstanceState where
  arms : List String
  counts : List ℕ
  rewards : List ℚ
  bias : List ℚ
  total_pulls : ℕ
  version : ℕ
deriving DecidableEq, Inhabited

/-- The data-model invariant of the spec: `total_pulls` equals the sum
of `counts`, the three statistics lists share the arm list's length,
and arm identifiers are unique within the instance. -/
def InstanceState.WF (s : InstanceState) : Prop :=
  s.total_pulls = s.counts.sum ∧ s.counts.length = s.arms.length ∧
    s.rewards.length = s.arms.length ∧ s.arms.Nodup

instance (s : InstanceState) : Decidable s.WF := by
  unfold InstanceState.WF; infer_instance

/-- Modelled from the spec: instance creation with a fixed arm set and
zero-initialized counts and rewards. -/
def mkInstance (arms : List String) (bias : List ℚ) : InstanceState :=
  { arms := arms, counts := List.replicate arms.length 0,
    rewards := List.replicate arms.length 0, bias := bias,
    total_pulls := 0, version := 0 }

/-- Modelled from the spec: an observed reward value; floating-point
rewards are represented by their finite (rational) value or one of the
non-finite markers the engine must reject. -/
inductive RewardVal where
  | finite (value : ℚ)
  | notANumber
  | posInfinity
  | negInfinity
deriving DecidableEq

/-- Finiteness test applied before any state mutation. -/
def RewardVal.isFinite : RewardVal → Bool
  | .finite _ => true
  | _ => false

/-- Numeric value of a finite reward (junk 0 on non-finite markers,
which are rejected before this is consulted). -/
def RewardVal.toRat : RewardVal → ℚ
  | .finite q => q
  | _ => 0

/-- Modelled from the spec: the policy `update` - increment the chosen
arm's count, add the observed reward, recompute `total_pulls`. -/
def updateState (s : InstanceState) (i : ℕ) (r : ℚ) : InstanceState :=
  let cs := s.counts.set i (s.counts.getD i 0 + 1)
  { s with counts := cs,
           rewards := s.rewards.set i (s.rewards.getD i 0 + r),
           total_pulls := cs.sum }

/-- Modelled from the spec: the mandatory cold-start rule - the lowest
index whose count is zero, if any. -/
def coldStartIndex (s : InstanceState) : Option ℕ :=
  (List.range s.counts.length).find? fun i => s.counts.getD i 1 == 0

/-- Modelled from the spec: the UCB1 confidence-adjusted score of arm
`i` under exploration coefficient `c`. -/
noncomputable def ucbScore (c : ℝ) (s : InstanceState) (i : ℕ) : ℝ :=
  (s.rewards.getD i 0 : ℝ) / (s.counts.getD i 0 : ℝ) + (s.bias.getD i 0 : ℝ) +
    c * Real.sqrt (Real.log (s.total_pulls : ℝ) / (s.counts.getD i 0 : ℝ))

/-- Modelled from the spec: UCB1 `select` - the cold-start rule if any
arm is untried, otherwise the maximal-score arm (earliest on ties). -/
noncomputable def ucbSelectIndex (c : ℝ) (s : InstanceState) : Option ℕ :=
  match coldStartIndex s with
  | some i => some i
  | none => (List.range s.counts.length).argmax fun i => ucbScore c s i

/-- Association-list lookup by string key. -/
def assocGet {α : Type} (st : List (String × α)) (k : String) : Option α :=
  (st.find? fun e => e.1 == k).map (·.2)

/-- Association-list overwrite by string key. -/
def assocPut {α : Type} (st : List (String × α)) (k : String) (v : α) : List (String × α) :=
  (k, v) :: st.filter fun e => !(e.1 == k)

/-- Modelled from the spec: the Arm Store, a key/value map from
instance keys to instance states. -/
def MabStore : Type := List (String × InstanceState)

/-- Store read. -/
def storeGet (st : MabStore) (k : String) : Option InstanceState := assocGet st k

/-- Store write. -/
def storePut (st : MabStore) (k : String) (s : InstanceState) : MabStore := assocPut st k s

/-- Modelled from the spec: `compareAndSwap` - write only if the
stored version equals the expected version, otherwise report the
conflict and leave the store untouched. -/
def storeCas (st : MabStore) (k : String) (expected : ℕ) (s : InstanceState) :
    Option MabStore :=
  match storeGet st k with
  | none => none
  | some cur => if cur.version == expected then some (storePut st k s) else none

/-- Modelled from the spec: the error taxonomy of the engine. -/
inductive MabError where
  | notFound
  | unknownArm
  | invalidReward
  | versionConflict
deriving DecidableEq

/-- Modelled from the spec: the Instance Manager's `selectArm` - read
the instance, run the policy, return the chosen arm identifier; purely
read-only, the store is returned unchanged. -/
noncomputable def selectArm (c : ℝ) (st : MabStore) (k : String) :
    Option String × MabStore :=
  match storeGet st k with
  | none => (none, st)
  | some s =>
    match ucbSelectIndex c s with
    | none => (none, st)
    | some i => (some (s.arms.getD i ""), st)

/-- Modelled from the spec: one attempt of the Instance Manager's
`recordReward` - validate the reward, read the state, locate the arm,
compute the new state via the policy update, and `compareAndSwap` it
back.  Every failure returns the store unchanged (in the sequential
setting the CAS always succeeds; contention is modelled separately). -/
def recordReward (st : MabStore) (k armId : String) (r : RewardVal) :
    Except MabError InstanceState × MabStore :=
  if r.isFinite = false then (.error .invalidReward, st)
  else
    match storeGet st k with
    | none => (.error .notFound, st)
    | some s =>
      match s.arms.findIdx? (fun a => a == armId) with
      | none => (.error .unknownArm, st)
      | some i =>
        match storeCas st k s.version
            { updateState s i r.toRat with version := s.version + 1 } with
        | some st' =>
          (.ok { updateState s i r.toRat with version := s.version + 1 }, st')
        | none => (.error .versionConflict, st)

/-- Modelled from the spec: the cold-start scenario - a run of
`select` calls, each followed by a `recordReward` for the returned arm
with the next reward of `rs`. -/
noncomputable def coldRun (c : ℝ) (st : MabStore) (k : String) : List ℚ → List (Option String)
  | [] => []
  | r :: rs =>
    match selectArm c st k with
    | (none, _) => none :: coldRun c st k rs
    | (some a, _) => some a :: coldRun c (recordReward st k a (.finite r)).2 k rs

/-- Modelled from the spec: phase of one concurrent `recordReward`
caller - about to read, holding a read snapshot and its version,
finished, or aborted on an unknown arm. -/
inductive WriterPhase where
  | ready
  | holding (snapVersion : ℕ) (snap : InstanceState)
  | finished
  | aborted
deriving DecidableEq, Inhabited

/-- One concurrent `recordReward` caller: the arm it rewards (always
with reward 1 in the contention scenario) and its phase. -/
structure RWriter where
  armId : String
  phase : WriterPhase
deriving DecidableEq, Inhabited

/-- Modelled from the spec: the shared system - one stored instance
state (the single contended key) and the concurrent callers. -/
structure ConcSys where
  shared : InstanceState
  writers : List RWriter
deriving DecidableEq, Inhabited

/-- Modelled from the spec: one atomic step of writer `w`.  A ready
writer reads a snapshot with its version; a holding writer attempts
the `compareAndSwap`: on version match it commits the updated state
(version bumped), on mismatch it abandons the attempt and retries from
a fresh read, leaving the shared state untouched. -/
def concStep (sys : ConcSys) (w : ℕ) : ConcSys :=
  match sys.writers[w]? with
  | none => sys
  | some wr =>
    match wr.phase with
    | .ready =>
      { sys with writers :=
          sys.writers.set w { wr with phase := .holding sys.shared.version sys.shared } }
    | .holding v snap =>
      if sys.shared.version == v then
        match snap.arms.findIdx? (fun a => a == wr.armId) with
        | some i =>
          { shared := { updateState snap i 1 with version := v + 1 },
            writers := sys.writers.set w { wr with phase := .finished } }
        | none => { sys with writers := sys.writers.set w { wr with phase := .aborted } }
      else { sys with writers := sys.writers.set w { wr with phase := .ready } }
    | .finished => sys
    | .aborted => sys

/-- Run a schedule (an arbitrary interleaving of writer steps). -/
def concRun (sys : ConcSys) (sched : List ℕ) : ConcSys := sched.foldl concStep sys

/-- Number of writers that have committed their update. -/
def doneCount (sys : ConcSys) : ℕ :=
  (sys.writers.filter fun wr => wr.phase == .finished).length

/-- Modelled from the spec: the redis database populated at container
startup from the JSON files - keys and contents are exactly the
filenames and file contents. -/
def redisLoadFiles (files : List (String × String)) : List (String × String) :=
  files.foldl (fun st f => assocPut st f.1 f.2) []

/-- Redis read. -/
def redisGetVal (st : List (String × String)) (k : String) : Option String := assocGet st k

/-- Modelled from the spec: the serialized form of an instance written
by the file backend (one rendering of the schema - arms, counts,
rewards, bias, version; its exact syntax is immaterial to the
contract, which is verbatim preservation of file contents). -/
def serializeInstance (s : InstanceState) : String :=
  "arms:[" ++ String.intercalate "," s.arms ++ "];counts:[" ++
    String.intercalate "," (s.counts.map toString) ++ "];rewards:[" ++
    String.intercalate "," (s.rewards.map toString) ++ "];bias:[" ++
    String.intercalate "," (s.bias.map toString) ++ "];version:" ++ toString s.version


/-- Inductive invariant of the contention model: the writer population
is fixed, the shared arm list is the initial one, counts keep their
length, the sum of counts exceeds the initial sum by exactly the
number of finished writers, and every held snapshot is either stale
(strictly smaller version) or identical to the current shared state. -/
def ConcInv (init : InstanceState) (n : ℕ) (sys : ConcSys) : Prop :=
  sys.writers.length = n ∧
  sys.shared.arms = init.arms ∧
  sys.shared.counts.length = init.arms.length ∧
  sys.shared.counts.sum = init.counts.sum + doneCount sys ∧
  ∀ wr ∈ sys.writers, ∀ v snap, wr.phase = WriterPhase.holding v snap →
    v ≤ sys.shared.version ∧ (v = sys.shared.version → snap = sys.shared)

/-- Splitting at the first separator: if two decompositions around an
underscore agree and neither left part contains an underscore, the
parts agree. -/
theorem underscore_split (a1 : List Char) : ∀ (a2 b1 b2 : List Char),
    '_' ∉ a1 → '_' ∉ a2 → a1 ++ '_' :: b1 = a2 ++ '_' :: b2 → a1 = a2 ∧ b1 = b2 := by
  induction a1 with
  | nil =>
    intro a2 b1 b2 _ h2 heq
    cases a2 with
    | nil => exact ⟨rfl, by simpa using heq⟩
    | cons c cs =>
      simp only [List.nil_append, List.cons_append, List.cons.injEq] at heq
      exact (h2 (by rw [heq.1]; exact List.mem_cons_self c cs)).elim
  | cons c cs ih =>
    intro a2 b1 b2 h1 h2 heq
    cases a2 with
    | nil =>
      simp only [List.nil_append, List.cons_append, List.cons.injEq] at heq
      exact (h1 (by rw [← heq.1]; exact List.mem_cons_self c cs)).elim
    | cons d ds =>
      simp only [List.cons_append, List.cons.injEq] at heq
      obtain ⟨rfl, htl⟩ := heq
      have := ih ds b1 b2 (fun hm => h1 (List.mem_cons_of_mem _ hm))
        (fun hm => h2 (List.mem_cons_of_mem _ hm)) htl
      exact ⟨by rw [this.1], this.2⟩

/-- Underscore-free community acronyms give injective item keys. -/
theorem itemKey_injective (c1 l1 c2 l2 : String)
    (h1 : '_' ∉ c1.data) (h2 : '_' ∉ c2.data) :
    itemKey c1 l1 = itemKey c2 l2 ↔ c1 = c2 ∧ l1 = l2 := by
  constructor
  · intro h
    have hd := congrArg String.data h
    simp only [itemKey, String.data_append] at hd
    have hd' : c1.data ++ '_' :: (l1.data ++ ".json".data)
        = c2.data ++ '_' :: (l2.data ++ ".json".data) := by
      simpa [show "_".data = ['_'] from rfl, List.append_assoc] using hd
    obtain ⟨hc, hl⟩ := underscore_split c1.data c2.data _ _ h1 h2 hd'
    exact ⟨String.ext hc, String.ext (List.append_cancel_right hl)⟩
  · rintro ⟨rfl, rfl⟩; rfl

/-- A category-level key never collides with an item-level key when
the community acronym of the former is underscore-free. -/
theorem catKey_ne_itemKey (c1 c2 l2 : String) (h1 : '_' ∉ c1.data) :
    catKey c1 ≠ itemKey c2 l2 := by
  intro h
  have hmem : ('_' : Char) ∈ (itemKey c2 l2).data := by
    simp only [itemKey, String.data_append]
    exact List.mem_append_left _ (List.mem_append_left _ (List.mem_append_right _ (by decide)))
  rw [← h] at hmem
  simp only [catKey, String.data_append] at hmem
  rcases List.mem_append.mp hmem with hm | hm
  · exact h1 hm
  · exact absurd hm (by decide)

/-- Category-level keys of distinct communities are distinct. -/
theorem catKey_injective (c1 c2 : String) : catKey c1 = catKey c2 ↔ c1 = c2 := by
  constructor
  · intro h
    have hd := congrArg String.data h
    simp only [catKey, String.data_append] at hd
    exact String.ext (List.append_cancel_right hd)
  · rintro rfl; rfl

/-- Head of a nonempty list is a member (helper for witnesses). -/
theorem headI_mem_of_ne_nil {α : Type} [Inhabited α] {l : List α} (h : l ≠ []) :
    l.headI ∈ l := by
  cases l with
  | nil => exact absurd rfl h
  | cons a t => exact List.mem_cons_self a t

/-- Claim C1.  At a database whose single (community, category)
combination has exactly 30 candidate publications, the candidate query
(`where count_pubs >30`) drops the combination and no bandit instance
is seeded - although the accompanying documentation states that only
combinations with fewer than 30 publications are filtered out and that
30 is the minimum pool size of any MAB. -/
theorem C1_exact_30_filtered_out :
    (t2Rows exDB30).map (fun r => (r.acr, r.label, r.count_pubs)) = [("c", "art", 30)] ∧
    candidates exDB30 = [] ∧ itemInstances exDB30 = [] ∧ categoryInstances exDB30 = [] := by
  refine ⟨by decide, by decide, by decide, by decide⟩

/-- Claim C2, counterexample.  At `exDB31` the generated arm list
begins "b", "a", "d0" with all citation counts tied, so it respects
neither descending-citation order with ascending-identifier tie-break
nor the reading with a descending-identifier tie-break: the code
applies no identifier tie-break at all. -/
theorem C2_counterexample_order :
    (itemInstances exDB31).map GenInstance.key = ["c_art.json"] ∧
    (itemInstances exDB31).headI.arms.take 3 = ["b", "a", "d0"] ∧
    ¬ claimArmOrder (groupCit exDB31 "c" "art") (itemInstances exDB31).headI.arms ∧
    ¬ claimArmOrderRev (groupCit exDB31 "c" "art") (itemInstances exDB31).headI.arms := by
  refine ⟨by decide, by decide, by decide, by decide⟩

/-- Claim C3, counterexample.  The keys under which the generator
persists instances are the JSON file names "c.json" and "c_art.json",
not the claimed "c" and "c:art": the item-level separator is an
underscore, not a colon, and both keys carry the ".json" suffix. -/
theorem C3_counterexample_keys :
    (categoryInstances exDB31).map GenInstance.key = ["c.json"] ∧
    (itemInstances exDB31).map GenInstance.key = ["c_art.json"] ∧
    "c.json" ≠ "c" ∧ "c_art.json" ≠ "c" ++ ":" ++ "art" := by
  refine ⟨by decide, by decide, by decide, by decide⟩

/-- Claim C10, counterexample.  At `exDB101`, where two distinct
level-2 fos ids share the label "art", the single seeded item-level
instance has 101 arms: the 100-per-partition cap is applied per fos
id, while the pool is grouped per label. -/
theorem C10_counterexample_cap :
    (itemInstances exDB101).map (fun i => i.arms.length) = [101] ∧ ¬ (101 ≤ 100) := by
  refine ⟨by decide, by decide⟩

/-- Claim C5.  Every category-level bandit is created as
`pUcb(0.3, 0.5, ...)` - the probability-weighted policy with two
independently supplied parameters - and every item-level bandit as
plain `Ucb(0.5, ...)`. -/
theorem C5_policy_assignment :
    (∀ (db : DB) (inst : GenInstance), inst ∈ categoryInstances db →
      inst.policy = MabPolicy.pUcb 0.3 0.5) ∧
    (∀ (db : DB) (inst : GenInstance), inst ∈ itemInstances db →
      inst.policy = MabPolicy.ucb 0.5) := by
  constructor
  · intro db inst h
    simp only [categoryInstances, List.mem_map] at h
    obtain ⟨c, _, rfl⟩ := h
    rfl
  · intro db inst h
    simp only [itemInstances, List.mem_map] at h
    obtain ⟨r, _, rfl⟩ := h
    rfl

/-- Witness for C5 at the concrete database `exDB31`. -/
theorem C5_policy_assignment_witness :
    (categoryInstances exDB31).headI.policy = MabPolicy.pUcb 0.3 0.5 ∧
    (itemInstances exDB31).headI.policy = MabPolicy.ucb 0.5 :=
  ⟨C5_policy_assignment.1 exDB31 _ (headI_mem_of_ne_nil (by decide)),
   C5_policy_assignment.2 exDB31 _ (headI_mem_of_ne_nil (by decide))⟩

/-- Claim C3, amended.  Instances are persisted under the JSON file
basenames `catKey community` and `itemKey community category`
(underscore separator, ".json" suffix; the redis keys equal the file
names), and this encoding maps distinct (community, category) pairs to
distinct keys provided community acronyms contain no underscore. -/
theorem C3_key_scheme :
    (∀ (db : DB) (inst : GenInstance), inst ∈ categoryInstances db →
      ∃ c, c ∈ (candidates db).map T2Row.acr ∧ inst.key = catKey c) ∧
    (∀ (db : DB) (inst : GenInstance), inst ∈ itemInstances db →
      ∃ r, r ∈ candidates db ∧ inst.key = itemKey r.acr r.label) ∧
    (∀ c1 l1 c2 l2 : String, '_' ∉ c1.data → '_' ∉ c2.data →
      (itemKey c1 l1 = itemKey c2 l2 ↔ c1 = c2 ∧ l1 = l2) ∧
      catKey c1 ≠ itemKey c2 l2 ∧ (catKey c1 = catKey c2 ↔ c1 = c2)) := by
  refine ⟨?_, ?_, ?_⟩
  · intro db inst h
    simp only [categoryInstances, List.mem_map] at h
    obtain ⟨c, hc, rfl⟩ := h
    exact ⟨c, (List.mem_dedup.mp hc), rfl⟩
  · intro db inst h
    simp only [itemInstances, List.mem_map] at h
    obtain ⟨r, hr, rfl⟩ := h
    exact ⟨r, hr, rfl⟩
  · intro c1 l1 c2 l2 h1 h2
    exact ⟨itemKey_injective c1 l1 c2 l2 h1 h2, catKey_ne_itemKey c1 c2 l2 h1,
      catKey_injective c1 c2⟩

/-- Witness for the amended C3 at concrete keys and the concrete
database `exDB31`. -/
theorem C3_key_scheme_witness :
    (∃ c, c ∈ (candidates exDB31).map T2Row.acr ∧
      (categoryInstances exDB31).headI.key = catKey c) ∧
    (∃ r, r ∈ candidates exDB31 ∧
      (itemInstances exDB31).headI.key = itemKey r.acr r.label) ∧
    ((itemKey "a" "x" = itemKey "b" "y" ↔ "a" = "b" ∧ "x" = "y") ∧
      catKey "a" ≠ itemKey "b" "y" ∧ (catKey "a" = catKey "b" ↔ "a" = "b")) :=
  ⟨C3_key_scheme.1 exDB31 _ (headI_mem_of_ne_nil (by decide)),
   C3_key_scheme.2.1 exDB31 _ (headI_mem_of_ne_nil (by decide)),
   C3_key_scheme.2.2 "a" "x" "b" "y" (by decide) (by decide)⟩

/-- Setting an entry of a natural-number list to its successor adds
one to the sum. -/
theorem sum_set_getD_succ (l : List ℕ) : ∀ i, i < l.length →
    (l.set i (l.getD i 0 + 1)).sum = l.sum + 1 := by
  induction l with
  | nil => intro i h; simp at h
  | cons a t ih =>
    intro i h
    cases i with
    | zero =>
      simp only [List.getD_cons_zero, List.set_cons_zero, List.sum_cons]
      omega
    | succ j =>
      have hj : j < t.length := by simpa using h
      simp only [List.getD_cons_succ, List.set_cons_succ, List.sum_cons, ih j hj]
      omega

/-- Lookup after an overwrite at the same key. -/
theorem assocGet_put_same {α : Type} (st : List (String × α)) (k : String) (v : α) :
    assocGet (assocPut st k v) k = some v := by
  simp [assocGet, assocPut, List.find?]

/-- Finding a key distinct from `k` ignores the removal of `k`
entries. -/
theorem find?_filter_ne {α : Type} (st : List (String × α)) (k k' : String) (h : k' ≠ k) :
    (st.filter fun e => !(e.1 == k)).find? (fun e => e.1 == k')
      = st.find? (fun e => e.1 == k') := by
  induction st with
  | nil => rfl
  | cons e t ih =>
    by_cases he : (e.1 == k) = true
    · have he' : (e.1 == k') = false := by
        rw [beq_iff_eq] at he
        exact beq_eq_false_iff_ne.mpr fun hh => h (by rw [← hh, he])
      rw [List.filter_cons_of_neg (by simp [he]), ih]
      simp [List.find?_cons, he']
    · rw [List.filter_cons_of_pos (by simp [he])]
      by_cases hp : (e.1 == k') = true
      · simp [List.find?_cons, hp]
      · simp [List.find?_cons, hp, ih]

/-- Lookup after an overwrite at a different key. -/
theorem assocGet_put_other {α : Type} (st : List (String × α)) (k k' : String) (v : α)
    (h : k' ≠ k) : assocGet (assocPut st k v) k' = assocGet st k' := by
  have hk : (k == k') = false := beq_eq_false_iff_ne.mpr fun e => h e.symm
  simp only [assocGet, assocPut, List.find?, hk]
  rw [find?_filter_ne st k k' h]

/-- The policy update with a version bump preserves the data-model
invariant. -/
theorem updateState_WF (s : InstanceState) (i : ℕ) (r : ℚ) (v : ℕ) (h : s.WF) :
    ({ updateState s i r with version := v } : InstanceState).WF := by
  obtain ⟨_, h2, h3, h4⟩ := h
  refine ⟨rfl, ?_, ?_, h4⟩
  · simpa [updateState] using h2
  · simpa [updateState] using h3

/-- Every stored state of a one-entry store built from an instance
satisfying the invariant satisfies it. -/
theorem storeWF_singleton {k0 : String} {inst : InstanceState} (h : inst.WF) :
    ∀ k' s, storeGet [(k0, inst)] k' = some s → s.WF := by
  intro k' s hs
  by_cases hk : (k0 == k') = true
  · simp only [storeGet, assocGet, List.find?, hk, Option.map_some] at hs
    cases hs
    exact h
  · simp only [storeGet, assocGet, List.find?] at hs
    rw [Bool.of_not_eq_true hk] at hs
    simp at hs

/-- Claim C6.  The data-model invariant (total pulls equal the sum of
counts, equal list lengths, unique arm identifiers) holds at every
observable point: at creation from a duplicate-free arm set, after
`selectArm` (which returns the store unchanged), and after every
`recordReward`, whether it succeeds or fails. -/
theorem C6_state_invariant :
    (∀ (arms : List String) (bias : List ℚ), arms.Nodup → (mkInstance arms bias).WF) ∧
    (∀ (c : ℝ) (st : MabStore) (k : String), (selectArm c st k).2 = st) ∧
    (∀ (st : MabStore) (k armId : String) (r : RewardVal),
      (∀ k' s, storeGet st k' = some s → s.WF) →
      ∀ k' s', storeGet (recordReward st k armId r).2 k' = some s' → s'.WF) := by
  refine ⟨?_, ?_, ?_⟩
  · intro arms bias h
    exact ⟨by simp [mkInstance], by simp [mkInstance], by simp [mkInstance], h⟩
  · intro c st k
    rcases h : storeGet st k with _ | s
    · simp [selectArm, h]
    · rcases h2 : ucbSelectIndex c s with _ | i <;> simp [selectArm, h, h2]
  · intro st k armId r hWF k' s' hs'
    unfold recordReward at hs'
    split at hs'
    · exact hWF k' s' hs'
    · split at hs'
      · exact hWF k' s' hs'
      · rename_i s hget
        split at hs'
        · exact hWF k' s' hs'
        · rename_i i hidx
          split at hs'
          · rename_i st' hcas
            have hst' : st' = storePut st k { updateState s i r.toRat with version := s.version + 1 } := by
              unfold storeCas at hcas
              rw [hget] at hcas
              simp only [beq_self_eq_true, if_true, Option.some.injEq] at hcas
              exact hcas.symm
            subst hst'
            simp only at hs'
            by_cases hk : k' = k
            · subst hk
              rw [show storeGet (storePut st k' { updateState s i r.toRat with version := s.version + 1 }) k'
                  = assocGet (assocPut st k' { updateState s i r.toRat with version := s.version + 1 }) k' from rfl,
                assocGet_put_same] at hs'
              cases hs'
              exact updateState_WF s i r.toRat (s.version + 1) (hWF k' s hget)
            · rw [show storeGet (storePut st k { updateState s i r.toRat with version := s.version + 1 }) k'
                  = assocGet (assocPut st k { updateState s i r.toRat with version := s.version + 1 }) k' from rfl,
                assocGet_put_other st k k' _ hk] at hs'
              exact hWF k' s' hs'
          · exact hWF k' s' hs'

/-- Witness for C6 at a concrete creation, a concrete read-only
`selectArm`, and a concrete successful `recordReward`. -/
theorem C6_state_invariant_witness :
    (mkInstance ["A", "B"] [0, 0]).WF ∧
    (selectArm 2 [("k", mkInstance ["A"] [0])] "k").2 = [("k", mkInstance ["A"] [0])] ∧
    (storeGet (recordReward [("k", mkInstance ["A"] [0])] "k" "A" (.finite 1)).2 "k").elim
      True InstanceState.WF := by
  refine ⟨C6_state_invariant.1 ["A", "B"] [0, 0] (by decide),
    C6_state_invariant.2.1 2 [("k", mkInstance ["A"] [0])] "k", ?_⟩
  rcases h : storeGet (recordReward [("k", mkInstance ["A"] [0])] "k" "A" (.finite 1)).2 "k"
    with _ | s'
  · exact trivial
  · exact C6_state_invariant.2.2 [("k", mkInstance ["A"] [0])] "k" "A" (.finite 1)
      (storeWF_singleton ⟨by simp [mkInstance], by simp [mkInstance], by simp [mkInstance],
        by simp [mkInstance]⟩) "k" s' h

/-- Claim C8.  Failure atomicity: a `compareAndSwap` attempt that
loses the version race leaves the shared stored state exactly as it
was, and every failing `recordReward` (including the rejection of a
non-finite reward with `invalidReward`) returns the store unchanged. -/
theorem C8_failure_preserves_state :
    (∀ (sys : ConcSys) (w : ℕ) (wr : RWriter) (v : ℕ) (snap : InstanceState),
      sys.writers[w]? = some wr → wr.phase = .holding v snap → sys.shared.version ≠ v →
      (concStep sys w).shared = sys.shared) ∧
    (∀ (st : MabStore) (k armId : String) (r : RewardVal) (e : MabError),
      (recordReward st k armId r).1 = .error e → (recordReward st k armId r).2 = st) := by
  constructor
  · intro sys w wr v snap hw hph hv
    have hb : (sys.shared.version == v) = false := by simpa using hv
    rcases wr with ⟨a, ph⟩
    cases hph
    simp [concStep, hw, hb]
  · intro st k armId r e h
    unfold recordReward at h ⊢
    split at h
    · rename_i hfin
      rw [if_pos hfin]
    · rename_i hfin
      rw [if_neg hfin]
      split at h
      · rfl
      · split at h
        · rfl
        · split at h
          · simp at h
          · rfl

/-- Witness for C8: a concrete conflicted CAS step (stored version 5,
snapshot version 4) and a concrete rejected non-finite reward. -/
theorem C8_failure_preserves_state_witness :
    (concStep (ConcSys.mk (InstanceState.mk ["A"] [0] [0] [0] 0 5)
        [RWriter.mk "A" (WriterPhase.holding 4 (InstanceState.mk ["A"] [0] [0] [0] 0 4))]) 0).shared
      = InstanceState.mk ["A"] [0] [0] [0] 0 5 ∧
    (recordReward [] "k" "A" RewardVal.notANumber).2 = [] :=
  ⟨C8_failure_preserves_state.1 _ 0 _ 4 _ rfl rfl (by decide),
   C8_failure_preserves_state.2 [] "k" "A" RewardVal.notANumber MabError.invalidReward rfl⟩

theorem getD_append_at {α : Type} [Inhabited α] (l1 : List α) (a x : α) (t : List α) :
    (l1 ++ a :: t).getD l1.length x = a := by
  induction l1 with
  | nil => rfl
  | cons b r ih => simpa using ih

theorem set_at_append (l1 : List ℕ) (b : ℕ) (t : List ℕ) (v : ℕ) :
    (l1 ++ b :: t).set l1.length v = l1 ++ v :: t := by
  induction l1 with
  | nil => rfl
  | cons c r ih => simpa using ih

theorem findIdx_at_append (done : List String) (a : String) (rem : List String)
    (h : a ∉ done) : ((done ++ a :: rem).findIdx? fun b => b == a) = some done.length := by
  induction done with
  | nil => simp [List.findIdx?_cons]
  | cons d ds ih =>
    have hd : (d == a) = false := by
      simp only [beq_eq_false_iff_ne]
      exact fun e => h (e ▸ List.mem_cons_self d ds)
    have hds : a ∉ ds := fun hm => h (List.mem_cons_of_mem d hm)
    simp [List.findIdx?_cons, hd, ih hds]

theorem getD_under_length (d m i : ℕ) (hi : i < d) :
    (List.replicate d 1 ++ List.replicate m 0).getD i 1 = 1 := by
  rw [List.getD_append _ _ _ _ (by simpa using hi)]
  simp [List.getD, List.getElem?_replicate, hi]

theorem coldStartIndex_shape (s : InstanceState) (d m : ℕ) (hm : 0 < m)
    (hc : s.counts = List.replicate d 1 ++ List.replicate m 0) :
    coldStartIndex s = some d := by
  unfold coldStartIndex
  rw [hc]
  have hlen : (List.replicate d 1 ++ List.replicate m 0).length = d + m := by simp
  rw [hlen, List.range_add]
  rw [List.find?_append]
  have h1 : (List.range d).find? (fun i => (List.replicate d 1 ++ List.replicate m 0).getD i 1 == 0) = none := by
    apply List.find?_eq_none.mpr
    intro i hi
    rw [List.mem_range] at hi
    have h2 := getD_under_length d m i hi
    simp only [h2]
    decide
  rw [h1]
  obtain ⟨m', rfl⟩ : ∃ m', m = m' + 1 := ⟨m - 1, by omega⟩
  rw [List.range_succ_eq_map]
  simp only [List.map_cons, Nat.add_zero]
  have hz : (List.replicate d 1 ++ List.replicate (m' + 1) 0).getD d 1 = 0 := by
    have h3 := getD_append_at (List.replicate d (1 : ℕ)) 0 1 (List.replicate m' 0)
    simpa [List.replicate_succ] using h3
  rw [List.find?_cons]
  have hpd : ((List.replicate d 1 ++ List.replicate (m' + 1) 0).getD d 1 == 0) = true := by
    rw [hz]
    decide
  rw [hpd]
  simp

theorem coldRun_visits (c : ℝ) (k : String) : ∀ (rs : List ℚ) (st : MabStore)
    (s : InstanceState) (done rem : List String),
    storeGet st k = some s →
    s.arms = done ++ rem →
    s.counts = List.replicate done.length 1 ++ List.replicate rem.length 0 →
    s.arms.Nodup →
    rs.length = rem.length →
    coldRun c st k rs = rem.map some := by
  intro rs
  induction rs with
  | nil =>
    intro st s done rem hget harms hcounts hnd hlen
    have hrem : rem = [] := List.eq_nil_of_length_eq_zero hlen.symm
    subst hrem
    rfl
  | cons r rs ih =>
    intro st s done rem hget harms hcounts hnd hlen
    rcases rem with _ | ⟨a, rem'⟩
    · simp at hlen
    have hcold : coldStartIndex s = some done.length :=
      coldStartIndex_shape s done.length (rem'.length + 1) (by omega) (by simpa using hcounts)
    have hsel : ucbSelectIndex c s = some done.length := by
      unfold ucbSelectIndex
      rw [hcold]
    have hgetD : s.arms.getD done.length "" = a := by
      rw [harms]; exact getD_append_at done a "" rem'
    have hselArm : selectArm c st k = (some a, st) := by
      unfold selectArm
      rw [hget]
      simp only [hsel, hgetD]
    have hnotin : a ∉ done := by
      rw [harms] at hnd
      rcases List.nodup_append.mp hnd with ⟨_, _, hdisj⟩
      exact fun hm => hdisj hm (List.mem_cons_self a rem')
    have hidx : s.arms.findIdx? (fun b => b == a) = some done.length := by
      rw [harms]; exact findIdx_at_append done a rem' hnotin
    have hcas : storeCas st k s.version
        { updateState s done.length r with version := s.version + 1 }
        = some (storePut st k { updateState s done.length r with version := s.version + 1 }) := by
      unfold storeCas
      rw [hget]
      simp
    have hrec : (recordReward st k a (.finite r)).2
        = storePut st k { updateState s done.length r with version := s.version + 1 } := by
      simp only [recordReward, RewardVal.isFinite, RewardVal.toRat, hget, hidx, hcas,
        Bool.true_eq_false, if_false]
    have hget2 : storeGet (storePut st k { updateState s done.length r with version := s.version + 1 }) k
        = some { updateState s done.length r with version := s.version + 1 } :=
      assocGet_put_same st k _
    have harms2 : ({ updateState s done.length r with version := s.version + 1 } : InstanceState).arms
        = (done ++ [a]) ++ rem' := by
      show s.arms = (done ++ [a]) ++ rem'
      rw [harms, List.append_assoc, List.singleton_append]
    have hcounts2 : ({ updateState s done.length r with version := s.version + 1 } : InstanceState).counts
        = List.replicate (done ++ [a]).length 1 ++ List.replicate rem'.length 0 := by
      show (s.counts.set done.length (s.counts.getD done.length 0 + 1))
          = List.replicate (done ++ [a]).length 1 ++ List.replicate rem'.length 0
      rw [hcounts]
      simp only [List.length_cons, List.replicate_succ]
      have hg : (List.replicate done.length (1 : ℕ) ++ 0 :: List.replicate rem'.length 0).getD
          done.length 0 = 0 := by
        have h3 := getD_append_at (List.replicate done.length (1 : ℕ)) 0 0 (List.replicate rem'.length 0)
        simpa using h3
      rw [hg]
      have h4 := set_at_append (List.replicate done.length (1 : ℕ)) 0 (List.replicate rem'.length 0) 1
      simp only [List.length_replicate] at h4
      rw [h4]
      simp [List.replicate_succ', List.append_assoc]
    have hnd2 : ({ updateState s done.length r with version := s.version + 1 } : InstanceState).arms.Nodup := by
      show s.arms.Nodup
      exact hnd
    have harms2' : ({ updateState s done.length r with version := s.version + 1 } : InstanceState).arms
        = s.arms := rfl
    have hstep := ih (storePut st k { updateState s done.length r with version := s.version + 1 })
      { updateState s done.length r with version := s.version + 1 } (done ++ [a]) rem'
      hget2 harms2 hcounts2 hnd2 (by simpa using hlen)
    show coldRun c st k (r :: rs) = (a :: rem').map some
    rw [coldRun]
    rw [hselArm]
    simp only [List.map_cons]
    rw [hrec, hstep]

/-- Claim C7.  Cold start: on an instance whose counts are all zero,
UCB1 selection always picks the lowest-index zero-count arm, so a run
of `select` calls, each followed by a `recordReward` for the returned
arm with an arbitrary finite reward, visits the arms exactly in list
order - every arm once, in ascending index order, before any arm is
selected a second time. -/
theorem C7_cold_start_order (c : ℝ) (st : MabStore) (k : String) (s : InstanceState)
    (rs : List ℚ) (hget : storeGet st k = some s)
    (hz : s.counts = List.replicate s.arms.length 0)
    (hnd : s.arms.Nodup) (hlen : rs.length = s.arms.length) :
    coldRun c st k rs = s.arms.map some :=
  coldRun_visits c k rs st s [] s.arms hget (by simp) (by simpa using hz) hnd hlen

/-- Witness for C7: three arms A, B, C with rewards 1, 1, 0 - the run
selects A, then B, then C. -/
theorem C7_cold_start_order_witness :
    coldRun 2 [("k", InstanceState.mk ["A", "B", "C"] [0, 0, 0] [0, 0, 0] [0, 0, 0] 0 0)] "k"
      [1, 1, 0] = [some "A", some "B", some "C"] := by
  have h := C7_cold_start_order 2
    [("k", InstanceState.mk ["A", "B", "C"] [0, 0, 0] [0, 0, 0] [0, 0, 0] 0 0)] "k"
    (InstanceState.mk ["A", "B", "C"] [0, 0, 0] [0, 0, 0] [0, 0, 0] 0 0)
    [1, 1, 0] rfl rfl (by decide) rfl
  simpa using h

/-- Membership position returned by findIdx? is within bounds. -/
theorem findIdx?_some_lt {α : Type} (p : α → Bool) : ∀ (l : List α) (i : ℕ),
    l.findIdx? p = some i → i < l.length := by
  intro l
  induction l with
  | nil => intro i h; simp [List.findIdx?] at h
  | cons a t ih =>
    intro i h
    rw [List.findIdx?_cons] at h
    by_cases hp : p a
    · simp [hp] at h
      simp [List.length_cons]
      omega
    · simp [hp] at h
      obtain ⟨j, hj, rfl⟩ := h
      have := ih j hj
      simpa using Nat.succ_lt_succ this

theorem countP_set (p : RWriter → Bool) : ∀ (l : List RWriter) (w : ℕ) (wr x : RWriter),
    l[w]? = some wr →
    (l.set w x).countP p + (if p wr then 1 else 0) = l.countP p + (if p x then 1 else 0) := by
  intro l
  induction l with
  | nil => intro w wr x h; simp at h
  | cons e t ih =>
    intro w wr x h
    cases w with
    | zero =>
      simp only [List.getElem?_cons_zero, Option.some.injEq] at h
      subst h
      simp only [List.set_cons_zero, List.countP_cons]
      split_ifs <;> omega
    | succ j =>
      simp only [List.getElem?_cons_succ] at h
      have hrec := ih j wr x h
      by_cases he : p e <;>
        simp only [List.set_cons_succ, List.countP_cons, he, if_true, if_false] <;> omega

/-- Setting a non-finished writer to a non-finished state keeps the
finished-writer count. -/
theorem finCount_set_eq (l : List RWriter) (w : ℕ) (wr x : RWriter) (hw : l[w]? = some wr)
    (hold : (wr.phase == WriterPhase.finished) = false)
    (hnew : (x.phase == WriterPhase.finished) = false) :
    ((l.set w x).filter fun y => y.phase == WriterPhase.finished).length
      = (l.filter fun y => y.phase == WriterPhase.finished).length := by
  have hcnt := countP_set (fun y => y.phase == WriterPhase.finished) l w wr x hw
  simp [hold, hnew] at hcnt
  rw [← List.countP_eq_length_filter, ← List.countP_eq_length_filter]
  omega

/-- Setting a non-finished writer to finished raises the
finished-writer count by one. -/
theorem finCount_set_fin (l : List RWriter) (w : ℕ) (wr x : RWriter) (hw : l[w]? = some wr)
    (hold : (wr.phase == WriterPhase.finished) = false)
    (hnew : (x.phase == WriterPhase.finished) = true) :
    ((l.set w x).filter fun y => y.phase == WriterPhase.finished).length
      = (l.filter fun y => y.phase == WriterPhase.finished).length + 1 := by
  have hcnt := countP_set (fun y => y.phase == WriterPhase.finished) l w wr x hw
  simp [hold, hnew] at hcnt
  rw [← List.countP_eq_length_filter, ← List.countP_eq_length_filter]
  omega

theorem concStep_inv (init : InstanceState) (n : ℕ) (sys : ConcSys) (w : ℕ)
    (h : ConcInv init n sys) : ConcInv init n (concStep sys w) := by
  obtain ⟨h0, h1, h2, h3, h4⟩ := h
  rcases hw : sys.writers[w]? with _ | wr
  · have hstep : concStep sys w = sys := by simp [concStep, hw]
    rw [hstep]
    exact ⟨h0, h1, h2, h3, h4⟩
  · have hwmem : wr ∈ sys.writers := List.getElem?_mem hw
    rcases hph : wr.phase with _ | ⟨v, snap⟩ | _ | _
    · -- ready: take a snapshot of state and version
      have hstep : concStep sys w =
          { sys with writers :=
              sys.writers.set w ({ wr with phase := .holding sys.shared.version sys.shared }) } := by
        simp [concStep, hw, hph]
      rw [hstep]
      refine ⟨by simpa using h0, h1, h2, ?_, ?_⟩
      · show sys.shared.counts.sum = init.counts.sum +
          ((sys.writers.set w
              ({ wr with phase := WriterPhase.holding sys.shared.version sys.shared })).filter
            fun y => y.phase == WriterPhase.finished).length
        rw [finCount_set_eq sys.writers w wr _ hw (by simp [hph]) (by simp)]
        exact h3
      · intro wr' hmem' v' snap' hph'
        rcases List.mem_or_eq_of_mem_set hmem' with hmem | rfl
        · exact h4 wr' hmem v' snap' hph'
        · simp only [WriterPhase.holding.injEq] at hph'
          rcases hph' with ⟨rfl, rfl⟩
          exact ⟨le_refl _, fun _ => rfl⟩
    · -- holding: CAS attempt
      by_cases hv : (sys.shared.version == v) = true
      · rcases hidx : snap.arms.findIdx? (fun a => a == wr.armId) with _ | i
        · -- unknown arm: abort, no write
          have hstep : concStep sys w =
              { sys with writers :=
                  sys.writers.set w ({ wr with phase := .aborted }) } := by
            simp [concStep, hw, hph, hv, hidx]
          rw [hstep]
          refine ⟨by simpa using h0, h1, h2, ?_, ?_⟩
          · show sys.shared.counts.sum = init.counts.sum +
              ((sys.writers.set w ({ wr with phase := WriterPhase.aborted })).filter
                fun y => y.phase == WriterPhase.finished).length
            rw [finCount_set_eq sys.writers w wr _ hw (by simp [hph]) (by simp)]
            exact h3
          · intro wr' hmem' v' snap' hph'
            rcases List.mem_or_eq_of_mem_set hmem' with hmem | rfl
            · exact h4 wr' hmem v' snap' hph'
            · simp at hph'
        · -- version match: commit the update
          have hveq : sys.shared.version = v := beq_iff_eq.mp hv
          have hsnap : snap = sys.shared := (h4 wr hwmem v snap hph).2 hveq.symm
          have hstep : concStep sys w =
              { shared := ({ updateState snap i 1 with version := v + 1 }),
                writers := sys.writers.set w ({ wr with phase := .finished }) } := by
            simp [concStep, hw, hph, hv, hidx]
          rw [hstep]
          have hilt : i < snap.arms.length := findIdx?_some_lt _ snap.arms i hidx
          have hclen : snap.counts.length = snap.arms.length := by
            rw [hsnap, h2, ← h1]
          refine ⟨by simpa using h0, ?_, ?_, ?_, ?_⟩
          · show snap.arms = init.arms
            rw [hsnap]; exact h1
          · show (snap.counts.set i (snap.counts.getD i 0 + 1)).length = init.arms.length
            rw [List.length_set, hsnap]
            exact h2
          · show (snap.counts.set i (snap.counts.getD i 0 + 1)).sum = init.counts.sum +
              ((sys.writers.set w ({ wr with phase := WriterPhase.finished })).filter
                fun y => y.phase == WriterPhase.finished).length
            rw [sum_set_getD_succ snap.counts i (by omega)]
            rw [finCount_set_fin sys.writers w wr _ hw (by simp [hph]) (by simp)]
            rw [hsnap, h3]
            show init.counts.sum + doneCount sys + 1
              = init.counts.sum + (doneCount sys + 1)
            omega
          · intro wr' hmem' v' snap' hph'
            rcases List.mem_or_eq_of_mem_set hmem' with hmem | rfl
            · have hold := h4 wr' hmem v' snap' hph'
              have hle : v' ≤ sys.shared.version := hold.1
              constructor
              · show v' ≤ v + 1
                omega
              · intro hveq'
                exfalso
                have hv'v : v' = v + 1 := hveq'
                omega
            · simp at hph'
      · -- version conflict: back off and retry from a fresh read
        have hstep : concStep sys w =
            { sys with writers :=
                sys.writers.set w ({ wr with phase := .ready }) } := by
          simp [concStep, hw, hph, hv]
        rw [hstep]
        refine ⟨by simpa using h0, h1, h2, ?_, ?_⟩
        · show sys.shared.counts.sum = init.counts.sum +
            ((sys.writers.set w ({ wr with phase := WriterPhase.ready })).filter
              fun y => y.phase == WriterPhase.finished).length
          rw [finCount_set_eq sys.writers w wr _ hw (by simp [hph]) (by simp)]
          exact h3
        · intro wr' hmem' v' snap' hph'
          rcases List.mem_or_eq_of_mem_set hmem' with hmem | rfl
          · exact h4 wr' hmem v' snap' hph'
          · simp at hph'
    · have hstep : concStep sys w = sys := by simp [concStep, hw, hph]
      rw [hstep]
      exact ⟨h0, h1, h2, h3, h4⟩
    · have hstep : concStep sys w = sys := by simp [concStep, hw, hph]
      rw [hstep]
      exact ⟨h0, h1, h2, h3, h4⟩

theorem concRun_inv (init : InstanceState) (n : ℕ) (sched : List ℕ) : ∀ (sys : ConcSys),
    ConcInv init n sys → ConcInv init n (concRun sys sched) := by
  induction sched with
  | nil => intro sys h; exact h
  | cons w sched ih =>
    intro sys h
    exact ih (concStep sys w) (concStep_inv init n sys w h)

/-- Claim C9.  No lost updates: when every one of the N concurrent
recordReward callers (each rewarding its arm with reward 1 through the
read-snapshot / compareAndSwap loop, retrying from a fresh read on a
version conflict) has finished under an arbitrary interleaving, the
sum of the stored counts is exactly N more than initially. -/
theorem C9_no_lost_updates (init : InstanceState) (ws : List String) (sched : List ℕ)
    (hlen : init.counts.length = init.arms.length)
    (hdone : ∀ wr ∈ (concRun (ConcSys.mk init (ws.map fun a => RWriter.mk a .ready)) sched).writers,
      wr.phase = WriterPhase.finished) :
    (concRun (ConcSys.mk init (ws.map fun a => RWriter.mk a .ready)) sched).shared.counts.sum
      = init.counts.sum + ws.length := by
  have hinv0 : ConcInv init ws.length (ConcSys.mk init (ws.map fun a => RWriter.mk a .ready)) := by
    refine ⟨by simp, rfl, hlen.symm ▸ rfl, ?_, ?_⟩
    · show init.counts.sum = init.counts.sum + doneCount (ConcSys.mk init (ws.map fun a => RWriter.mk a .ready))
      have hf : ((ws.map fun a => RWriter.mk a .ready).filter
          fun y => y.phase == WriterPhase.finished) = [] := by
        rw [List.filter_eq_nil_iff]
        intro wr hmem
        simp only [List.mem_map] at hmem
        obtain ⟨a, _, rfl⟩ := hmem
        simp
      unfold doneCount
      rw [hf]
      rfl
    · intro wr hmem v snap hph
      simp only [List.mem_map] at hmem
      obtain ⟨a, _, rfl⟩ := hmem
      simp at hph
  have hinv := concRun_inv init ws.length sched _ hinv0
  obtain ⟨h0, _, _, h3, _⟩ := hinv
  have hall : ((concRun (ConcSys.mk init (ws.map fun a => RWriter.mk a .ready)) sched).writers.filter
      fun y => y.phase == WriterPhase.finished)
      = (concRun (ConcSys.mk init (ws.map fun a => RWriter.mk a .ready)) sched).writers := by
    rw [List.filter_eq_self]
    intro wr hmem
    simp [hdone wr hmem]
  rw [h3]
  unfold doneCount
  rw [hall, h0]

/-- Witness for C9: two writers on arms A and B under a schedule that
forces one genuine version conflict and retry. -/
theorem C9_no_lost_updates_witness :
    (concRun (ConcSys.mk (InstanceState.mk ["A", "B"] [0, 0] [0, 0] [0, 0] 0 0)
        (["A", "B"].map fun a => RWriter.mk a .ready)) [0, 1, 0, 1, 1, 1]).shared.counts.sum
      = (InstanceState.mk ["A", "B"] [0, 0] [0, 0] [0, 0] 0 0).counts.sum + 2 := by
  have h := C9_no_lost_updates (InstanceState.mk ["A", "B"] [0, 0] [0, 0] [0, 0] 0 0)
    ["A", "B"] [0, 1, 0, 1, 1, 1] rfl (by decide)
  simpa using h

/-- Folded puts at other keys do not disturb a lookup. -/
theorem assocGet_foldl_absent {α : Type} : ∀ (files : List (String × α))
    (acc : List (String × α)) (k : String), k ∉ files.map Prod.fst →
    assocGet (files.foldl (fun st f => assocPut st f.1 f.2) acc) k = assocGet acc k := by
  intro files
  induction files with
  | nil => intro acc k _; rfl
  | cons f fs ih =>
    intro acc k hk
    simp only [List.map_cons, List.mem_cons] at hk
    push_neg at hk
    simp only [List.foldl_cons]
    rw [ih (assocPut acc f.1 f.2) k hk.2]
    exact assocGet_put_other acc f.1 k f.2 hk.1

theorem assocGet_foldl_mem {α : Type} : ∀ (files : List (String × α))
    (acc : List (String × α)) (k : String) (v : α),
    (files.map Prod.fst).Nodup → (k, v) ∈ files →
    assocGet (files.foldl (fun st f => assocPut st f.1 f.2) acc) k = some v := by
  intro files
  induction files with
  | nil => intro acc k v _ h; simp at h
  | cons f fs ih =>
    intro acc k v hnd hmem
    simp only [List.foldl_cons]
    rcases List.mem_cons.mp hmem with heq | hmem'
    · cases heq
      have hnotin : k ∉ fs.map Prod.fst := by
        simp only [List.map_cons, List.nodup_cons] at hnd
        exact hnd.1
      rw [assocGet_foldl_absent fs (assocPut acc k v) k hnotin]
      exact assocGet_put_same acc k v
    · have hnd' : (fs.map Prod.fst).Nodup := by
        simp only [List.map_cons, List.nodup_cons] at hnd
        exact hnd.2
      exact ih (assocPut acc f.1 f.2) k v hnd' hmem'

/-- Every row of the candidate query's `t` CTE comes from a row of the
`top100_per_level_2_fos` table with the same projected columns. -/
theorem mem_tRows_inv (db : DB) (tr : TRow) (h : tr ∈ tRows db) :
    ∃ fr ∈ top100_per_level_2_fos db, fr.acr = tr.acr ∧ fr.level2Label = tr.label ∧
      fr.idStr = tr.idStr ∧ fr.citations = tr.citations := by
  unfold tRows at h
  rw [List.mem_dedup] at h
  obtain ⟨fr, hfr, heq⟩ := List.mem_map.mp h
  cases heq
  exact ⟨fr, hfr, rfl, rfl, rfl, rfl⟩

/-- Claim C2, amended.  For every filtered (community, category) row,
the Arm Generator seeds exactly the instance whose fixed arm list is
the row's aggregated publication list - in aggregation order, with no
reordering - and every arm in the list is the identifier of a
`top100_per_level_2_fos` row of that community and label (hence drawn
from a per-fos-id top-100-by-citations ranking). -/
theorem C2_arms_from_top100 (db : DB) (r : T2Row) (hr : r ∈ candidates db) :
    ({ key := r.acr ++ "_" ++ r.label ++ ".json", policy := .ucb 0.5,
       arms := r.publications,
       counts := List.replicate r.publications.length 0,
       rewards := List.replicate r.publications.length 0,
       bias := List.replicate r.publications.length 0 } : GenInstance) ∈ itemInstances db ∧
    ∀ a ∈ r.publications, ∃ fr ∈ top100_per_level_2_fos db,
      fr.idStr = a ∧ fr.acr = r.acr ∧ fr.level2Label = r.label := by
  constructor
  · exact List.mem_map.mpr ⟨r, hr, rfl⟩
  · intro a ha
    have hr2 : r ∈ t2Rows db := (List.mem_filter.mp hr).1
    simp only [t2Rows, List.mem_map] at hr2
    obtain ⟨k, hk, rfl⟩ := hr2
    simp only at ha ⊢
    obtain ⟨tr, htr, rfl⟩ := List.mem_map.mp ha
    obtain ⟨htrmem, hcond⟩ := List.mem_filter.mp htr
    simp only [Bool.and_eq_true, beq_iff_eq] at hcond
    obtain ⟨fr, hfr, h1, h2, h3, _⟩ := mem_tRows_inv db tr htrmem
    exact ⟨fr, hfr, h3, by rw [h1, hcond.1], by rw [h2, hcond.2]⟩

/-- Witness for the amended C2 at the concrete database `exDB31`. -/
theorem C2_arms_from_top100_witness :
    ({ key := (candidates exDB31).headI.acr ++ "_" ++ (candidates exDB31).headI.label ++ ".json",
       policy := .ucb 0.5,
       arms := (candidates exDB31).headI.publications,
       counts := List.replicate (candidates exDB31).headI.publications.length 0,
       rewards := List.replicate (candidates exDB31).headI.publications.length 0,
       bias := List.replicate (candidates exDB31).headI.publications.length 0 } : GenInstance)
        ∈ itemInstances exDB31 ∧
    ∀ a ∈ (candidates exDB31).headI.publications, ∃ fr ∈ top100_per_level_2_fos exDB31,
      fr.idStr = a ∧ fr.acr = (candidates exDB31).headI.acr ∧
        fr.level2Label = (candidates exDB31).headI.label :=
  C2_arms_from_top100 exDB31 (candidates exDB31).headI (headI_mem_of_ne_nil (by decide))

/-- Claim C4.  Offline-to-online interchangeability: loading the JSON
files into redis at startup preserves keys and contents verbatim, so
an instance serialized offline by the file backend is read back from
the online backend byte-for-byte, under its own key. -/
theorem C4_offline_to_redis_verbatim (insts : List (String × InstanceState))
    (hnd : (insts.map Prod.fst).Nodup) (k : String) (s : InstanceState)
    (hmem : (k, s) ∈ insts) :
    redisGetVal (redisLoadFiles (insts.map fun e => (e.1, serializeInstance e.2))) k
      = some (serializeInstance s) := by
  unfold redisGetVal redisLoadFiles
  apply assocGet_foldl_mem
  · have : ((insts.map fun e => (e.1, serializeInstance e.2)).map Prod.fst)
        = insts.map Prod.fst := by
      rw [List.map_map]
      rfl
    rw [this]
    exact hnd
  · exact List.mem_map.mpr ⟨(k, s), hmem, rfl⟩

/-- Witness for C4 at a concrete one-instance deployment. -/
theorem C4_offline_to_redis_verbatim_witness :
    redisGetVal (redisLoadFiles ([("c.json", mkInstance ["A"] [0])].map
        fun e => (e.1, serializeInstance e.2))) "c.json"
      = some (serializeInstance (mkInstance ["A"] [0])) :=
  C4_offline_to_redis_verbatim [("c.json", mkInstance ["A"] [0])] (by decide) "c.json"
    (mkInstance ["A"] [0]) (List.mem_cons_self _ _)

theorem headI_eq_of_mem_of_all_eq {α : Type} [Inhabited α] (l : List α) (a : α)
    (hmem : a ∈ l) (hall : ∀ b ∈ l, b = a) : l.headI = a := by
  cases l with
  | nil => simp at hmem
  | cons x t => exact hall x (List.mem_cons_self x t)

theorem insertByCitDesc_perm (x : CCRow) : ∀ (l : List CCRow),
    (insertByCitDesc x l).Perm (x :: l) := by
  intro l
  induction l with
  | nil => exact List.Perm.refl _
  | cons y ys ih =>
    unfold insertByCitDesc
    by_cases hc : x.citations ≤ y.citations
    · rw [if_pos hc]
      exact (ih.cons y).trans (List.Perm.swap x y ys)
    · rw [if_neg hc]

theorem sortByCitDesc_perm_aux : ∀ (l acc : List CCRow),
    (l.foldl (fun acc x => insertByCitDesc x acc) acc).Perm (acc ++ l) := by
  intro l
  induction l with
  | nil => intro acc; simp
  | cons x xs ih =>
    intro acc
    simp only [List.foldl_cons]
    have h1 := ih (insertByCitDesc x acc)
    have h2 : (insertByCitDesc x acc ++ xs).Perm ((x :: acc) ++ xs) :=
      (insertByCitDesc_perm x acc).append_right xs
    have h3 : ((x :: acc) ++ xs).Perm (acc ++ x :: xs) := by
      simp only [List.cons_append]
      exact List.perm_middle.symm
    exact (h1.trans h2).trans h3

theorem mem_sortByCitDesc {x : CCRow} {l : List CCRow} (h : x ∈ sortByCitDesc l) : x ∈ l := by
  unfold sortByCitDesc at h
  have := (sortByCitDesc_perm_aux l []).mem_iff.mp h
  simpa using this

/-- Every row of `citations_count` carries a fos row that produced its
label. -/
theorem cc_has_fos (db : DB) (r : CCRow) (h : r ∈ citations_count db) :
    ∃ f ∈ db.fos, f.id = r.level2Id ∧ f.label = r.level2Label := by
  unfold citations_count at h
  obtain ⟨k, hk, heq⟩ := List.mem_map.mp h
  have hk2 : k ∈ ccJoin db := List.mem_dedup.mp hk
  unfold ccJoin at hk2
  obtain ⟨rf, _, hin⟩ := List.mem_flatMap.mp hk2
  by_cases hcond : 1 ≤ rf.fosId / 100 ∧ rf.fosId / 100 < 10
  · rw [if_pos hcond] at hin
    obtain ⟨f, hf, hin2⟩ := List.mem_flatMap.mp hin
    obtain ⟨hfmem, hfid⟩ := List.mem_filter.mp hf
    obtain ⟨_, _, hin3⟩ := List.mem_flatMap.mp hin2
    obtain ⟨_, _, heq2⟩ := List.mem_map.mp hin3
    rw [beq_iff_eq] at hfid
    refine ⟨f, hfmem, ?_, ?_⟩
    · cases heq
      cases heq2
      exact hfid
    · cases heq
      cases heq2
      rfl
  · rw [if_neg hcond] at hin
    simp at hin

/-- Every row of the ids table is a `citations_count` row lying in the
take-100 slice of its own level-2 partition. -/
theorem mem_top100ids_inv (db : DB) (t : CCRow) (h : t ∈ top100_per_level_2_fos_ids db) :
    t ∈ citations_count db ∧
    t ∈ (sortByCitDesc ((citations_count db).filter
        fun r => r.level2Id == t.level2Id)).take 100 := by
  unfold top100_per_level_2_fos_ids at h
  obtain ⟨l2, _, hin⟩ := List.mem_flatMap.mp h
  have hsorted : t ∈ sortByCitDesc ((citations_count db).filter fun r => r.level2Id == l2) :=
    List.mem_of_mem_take hin
  have hfil := mem_sortByCitDesc hsorted
  obtain ⟨hcc, hl2⟩ := List.mem_filter.mp hfil
  rw [beq_iff_eq] at hl2
  subst hl2
  exact ⟨hcc, hin⟩

/-- Every row of `top100_per_level_2_fos` joins an ids-table row with
a `result` row of the same surrogate key. -/
theorem mem_top100fos_inv (db : DB) (fr : FRow) (h : fr ∈ top100_per_level_2_fos db) :
    ∃ t ∈ top100_per_level_2_fos_ids db, ∃ rr ∈ db.result,
      rr.sk = t.sk ∧ fr.idStr = rr.idStr ∧ fr.level2Label = t.level2Label ∧
      fr.citations = t.citations ∧ fr.level2Id = t.level2Id := by
  unfold top100_per_level_2_fos at h
  obtain ⟨t, ht, h1⟩ := List.mem_flatMap.mp h
  obtain ⟨rc, _, h2⟩ := List.mem_flatMap.mp h1
  obtain ⟨c, _, h3⟩ := List.mem_flatMap.mp h2
  obtain ⟨u, _, h4⟩ := List.mem_flatMap.mp h3
  obtain ⟨rf1, _, h5⟩ := List.mem_flatMap.mp h4
  obtain ⟨f1, _, h6⟩ := List.mem_flatMap.mp h5
  obtain ⟨rr, hrr, heq⟩ := List.mem_map.mp h6
  obtain ⟨hrrmem, hrrsk⟩ := List.mem_filter.mp hrr
  rw [beq_iff_eq] at hrrsk
  cases heq
  exact ⟨t, ht, rr, hrrmem, hrrsk, rfl, rfl, rfl, rfl⟩

/-- Claim C10, amended.  Every item-level instance seeded by the Arm
Generator has strictly more than 30 arms (the `count_pubs >30`
filter); and provided fos labels uniquely identify fos ids and result
surrogate keys are unique, it has at most 100 arms, because each
group's distinct (identifier, citations) pairs inject into the
take-100 slice of a single level-2 partition. -/
theorem C10_pool_bounds (db : DB) (inst : GenInstance) (hmem : inst ∈ itemInstances db) :
    30 < inst.arms.length ∧
    ((∀ f1 ∈ db.fos, ∀ f2 ∈ db.fos, f1.label = f2.label → f1.id = f2.id) →
      (db.result.map ResultRow.sk).Nodup →
      inst.arms.length ≤ 100) := by
  simp only [itemInstances, List.mem_map] at hmem
  obtain ⟨r, hr, rfl⟩ := hmem
  obtain ⟨hr2, hcount⟩ := List.mem_filter.mp hr
  simp only [t2Rows, List.mem_map] at hr2
  obtain ⟨k, hk, rfl⟩ := hr2
  constructor
  · show 30 < (((tRows db).filter fun tr => tr.acr == k.1 && tr.label == k.2).map
      (fun tr => tr.idStr)).length
    rw [List.length_map]
    exact of_decide_eq_true hcount
  · intro hfos hres
    have htR : (tRows db).Nodup := by
      unfold tRows
      exact List.nodup_dedup _
    have hgnodup : ((tRows db).filter fun tr => tr.acr == k.1 && tr.label == k.2).Nodup :=
      htR.filter _
    have hPnodup : (((tRows db).filter fun tr => tr.acr == k.1 && tr.label == k.2).map
        (fun tr => (tr.idStr, tr.citations))).Nodup := by
      refine List.Nodup.map_on ?_ hgnodup
      intro x hx y hy hxy
      obtain ⟨hx1, hx2⟩ := List.mem_filter.mp hx
      obtain ⟨hy1, hy2⟩ := List.mem_filter.mp hy
      simp only [Bool.and_eq_true, beq_iff_eq] at hx2 hy2
      simp only [Prod.mk.injEq] at hxy
      rcases x with ⟨xa, xl, xi, xc⟩
      rcases y with ⟨ya, yl, yi, yc⟩
      simp_all
    have hsub : ∀ p ∈ ((tRows db).filter fun tr => tr.acr == k.1 && tr.label == k.2).map
        (fun tr => (tr.idStr, tr.citations)),
        p ∈ ((sortByCitDesc ((citations_count db).filter
            fun rr => rr.level2Id == labelToId db k.2)).take 100).map
          (fun t => (idStrOf db t.sk, t.citations)) := by
      intro p hp
      obtain ⟨tr, htr, rfl⟩ := List.mem_map.mp hp
      obtain ⟨htrmem, hcond⟩ := List.mem_filter.mp htr
      simp only [Bool.and_eq_true, beq_iff_eq] at hcond
      obtain ⟨fr, hfr, hfa, hfl, hfi, hfc⟩ := mem_tRows_inv db tr htrmem
      obtain ⟨t, ht, rr, hrrmem, hrrsk, hfid, hftl, hftc, hftid⟩ := mem_top100fos_inv db fr hfr
      obtain ⟨hcc, htake⟩ := mem_top100ids_inv db t ht
      obtain ⟨f, hfmem, hfid2, hflab⟩ := cc_has_fos db t hcc
      have hlab : t.level2Label = k.2 := by rw [← hftl, hfl, hcond.2]
      have hl0 : labelToId db k.2 = t.level2Id := by
        unfold labelToId
        apply headI_eq_of_mem_of_all_eq
        · exact List.mem_map.mpr ⟨f, List.mem_filter.mpr
            ⟨hfmem, by rw [beq_iff_eq, hflab, hlab]⟩, hfid2⟩
        · intro b hb
          obtain ⟨f2, hf2, rfl⟩ := List.mem_map.mp hb
          obtain ⟨hf2mem, hf2lab⟩ := List.mem_filter.mp hf2
          rw [beq_iff_eq] at hf2lab
          have heqlab : f2.label = f.label := by rw [hf2lab, hflab, hlab]
          have heqid := hfos f2 hf2mem f hfmem heqlab
          rw [heqid, hfid2]
      have hid : idStrOf db t.sk = rr.idStr := by
        unfold idStrOf
        apply headI_eq_of_mem_of_all_eq
        · exact List.mem_map.mpr ⟨rr, List.mem_filter.mpr
            ⟨hrrmem, by rw [beq_iff_eq, hrrsk]⟩, rfl⟩
        · intro b hb
          obtain ⟨rr2, hrr2, rfl⟩ := List.mem_map.mp hb
          obtain ⟨hrr2mem, hrr2sk⟩ := List.mem_filter.mp hrr2
          rw [beq_iff_eq] at hrr2sk
          have heqrr : rr2 = rr :=
            List.inj_on_of_nodup_map hres hrr2mem hrrmem (by rw [hrr2sk, hrrsk])
          rw [heqrr]
      rw [hl0]
      exact List.mem_map.mpr ⟨t, htake, by rw [hid, ← hfid, hfi, ← hftc, hfc]⟩
    have hsp := List.subperm_of_subset hPnodup hsub
    have hle := hsp.length_le
    rw [List.length_map] at hle
    have hle2 := List.length_take_le 100
      (sortByCitDesc ((citations_count db).filter
        fun rr => rr.level2Id == labelToId db k.2))
    rw [List.length_map] at hle
    show (((tRows db).filter fun tr => tr.acr == k.1 && tr.label == k.2).map
      (fun tr => tr.idStr)).length ≤ 100
    rw [List.length_map]
    omega

/-- Witness for the amended C10 at the concrete database `exDB31`
(31 arms: more than 30 and at most 100). -/
theorem C10_pool_bounds_witness :
    30 < (itemInstances exDB31).headI.arms.length ∧
    (itemInstances exDB31).headI.arms.length ≤ 100 := by
  have h := C10_pool_bounds exDB31 (itemInstances exDB31).headI (headI_mem_of_ne_nil (by decide))
  exact ⟨h.1, h.2 (by decide) (by decide)⟩
